import Mathlib

/-
  Verification of the backtick-scanning script `find_unclosed_backtick.py`.

  The script reads a file into a list of lines (Python `readlines`, which keeps
  the line terminator at the end of each line), walks the lines and characters
  in order, counts backtick characters cumulatively, prints one event line per
  backtick, prints a warning after each line at which the cumulative count is
  odd, and finally prints a blank line, a total line and a parity verdict.

  The embedding below models the file contents as a `List Char`, the printed
  standard output as a `List OutLine` (one element per printed terminal line),
  and the script as pure functions over these.
-/

set_option maxHeartbeats 1000000

namespace BacktickScan

/-- The backtick character, written via its code point so that the source file
itself contains no raw backtick. -/
def backtickChar : Char := Char.ofNat 96

/-- The newline character. -/
def newlineChar : Char := Char.ofNat 10

/-- The carriage-return character. -/
def carriageChar : Char := Char.ofNat 13

/-- One printed line of the script's standard output.  The Python statement
`print(f"\nTotal backticks: {n}")` emits two terminal lines, modelled here as
`blank` followed by `totalLine n`. -/
inductive OutLine where
  | event (lineNum charPos total : Nat)
  | warning (lineNum : Nat)
  | blank
  | totalLine (total : Nat)
  | verdictError
  | verdictOk
deriving DecidableEq, Repr

/-- Number of backtick characters in one line. -/
def countBt : List Char → Nat
  | [] => 0
  | ch :: rest => (if ch = backtickChar then 1 else 0) + countBt rest

/-- Total number of backtick characters over a list of lines. -/
def totalBackticks : List (List Char) → Nat
  | [] => 0
  | l :: ls => countBt l + totalBackticks ls

/-- The inner `for char_pos, char in enumerate(line)` loop of the script:
`pos` is the 0-based position of the first character of the remaining line,
`count` the counter value on entry.  Returns the counter on exit and the
event lines printed, in order.  The printed position is `char_pos + 1` and the
printed total is the just-incremented counter, exactly as in the source. -/
def scanLineAux (lineNum pos count : Nat) : List Char → Nat × List OutLine
  | [] => (count, [])
  | ch :: rest =>
    if ch = backtickChar then
      let r := scanLineAux lineNum (pos + 1) (count + 1) rest
      (r.1, OutLine.event lineNum (pos + 1) (count + 1) :: r.2)
    else
      scanLineAux lineNum (pos + 1) count rest

/-- The outer `for line_num, line in enumerate(lines, 1)` loop: scans each
line, then prints the warning when the cumulative counter is odd at the end of
the line.  Returns the final counter and all lines printed by the loop. -/
def processLines (lineNum count : Nat) : List (List Char) → Nat × List OutLine
  | [] => (count, [])
  | l :: ls =>
    let r1 := scanLineAux lineNum 0 count l
    let w := if r1.1 % 2 = 1 then [OutLine.warning lineNum] else []
    let r2 := processLines (lineNum + 1) r1.1 ls
    (r2.1, r1.2 ++ w ++ r2.2)

/-- The whole of `find_unclosed_backtick` after the file has been read into
`lines`: the loop output, then the blank line and total line coming from
`print(f"\nTotal backticks: ...")`, then the parity verdict. -/
def find_unclosed_backtick (lines : List (List Char)) : List OutLine :=
  let r := processLines 1 0 lines
  r.2 ++ [OutLine.blank, OutLine.totalLine r.1,
    if r.1 % 2 = 1 then OutLine.verdictError else OutLine.verdictOk]

/-- Universal-newline translation performed by Python's text mode `open`:
a carriage return, optionally followed by a line feed, reads as a single
newline. -/
def translateNewlines : List Char → List Char
  | [] => []
  | a :: rest =>
    if a = carriageChar then
      match rest with
      | [] => [newlineChar]
      | b :: rest2 =>
        if b = newlineChar then newlineChar :: translateNewlines rest2
        else newlineChar :: translateNewlines (b :: rest2)
    else a :: translateNewlines rest

/-- Accumulator worker for `readlines`: `cur` holds the characters of the
current (unfinished) line in reverse order. -/
def readlinesAux (cur : List Char) : List Char → List (List Char)
  | [] => if cur.isEmpty then [] else [cur.reverse]
  | ch :: rest =>
    if ch = newlineChar then
      (cur.reverse ++ [newlineChar]) :: readlinesAux [] rest
    else
      readlinesAux (ch :: cur) rest

/-- Python's `f.readlines()`: split the (already newline-translated) contents
into lines, keeping the terminating newline at the end of each line; a final
fragment without a terminator is kept as a last line; the empty file yields no
lines. -/
def readlines (content : List Char) : List (List Char) :=
  readlinesAux [] content

/-- A run of the script on a file: `none` models a path that does not exist or
is unreadable (Python's `open` raises before anything is printed), `some c`
models a readable file with raw contents `c`.  Returns the printed output and
whether the run completed normally. -/
def runScript (file : Option (List Char)) : List OutLine × Bool :=
  match file with
  | none => ([], false)
  | some content => (find_unclosed_backtick (readlines (translateNewlines content)), true)

/-- Text of one printed line, matching the script's f-strings. -/
def render : OutLine → String
  | OutLine.event n p t =>
      "Line " ++ toString n ++ ", char " ++ toString p ++
        ": Found backtick (total: " ++ toString t ++ ")"
  | OutLine.warning n =>
      "*** WARNING: Unclosed backtick detected at end of line " ++ toString n
  | OutLine.blank => ""
  | OutLine.totalLine t => "Total backticks: " ++ toString t
  | OutLine.verdictError =>
      "ERROR: Odd number of backticks - there\x27s an unclosed template literal!"
  | OutLine.verdictOk => "OK: Even number of backticks"

/-- The exact bytes a run writes to standard output: each printed line
followed by a newline. -/
def renderOutput : List OutLine → String
  | [] => ""
  | l :: ls => render l ++ "\n" ++ renderOutput ls

/-- The total printed inside an event line, `none` for every other kind of
output line. -/
def eventTotal : OutLine → Option Nat
  | OutLine.event _ _ t => some t
  | _ => none

/-- The sequence of totals reported by the event lines of an output, in
order. -/
def eventTotals (out : List OutLine) : List Nat :=
  out.filterMap eventTotal

/-- The successive values of the counter after each line of the run that
starts at line number `lineNum` with counter value `count`: entry `i` is the
counter after the `(i+1)`-st processed line.  Shares `scanLineAux` with the
run itself. -/
def runTrace (lineNum count : Nat) : List (List Char) → List Nat
  | [] => []
  | l :: ls =>
    let c1 := (scanLineAux lineNum 0 count l).1
    c1 :: runTrace (lineNum + 1) c1 ls

/-- The counter values of the real run (`lineNum = 1`, counter initialised to
zero), preceded by the initial value: entry `i` is the counter after the
first `i` lines. -/
def counterTrace (lines : List (List Char)) : List Nat :=
  0 :: runTrace 1 0 lines

/-- A line as `readlines` returns it, with the trailing newline (if any)
removed. -/
def stripNewline (l : List Char) : List Char :=
  if l.getLast? = some newlineChar then l.dropLast else l

theorem scanLineAux_fst (l : List Char) : ∀ n p c : Nat,
    (scanLineAux n p c l).1 = c + countBt l := by
  induction l with
  | nil => intro n p c; simp [scanLineAux, countBt]
  | cons ch rest ih =>
    intro n p c
    by_cases h : ch = backtickChar
    · simp [scanLineAux, countBt, h, ih]
      omega
    · simp [scanLineAux, countBt, h, ih]

theorem scanLineAux_snd_length (l : List Char) : ∀ n p c : Nat,
    (scanLineAux n p c l).2.length = countBt l := by
  induction l with
  | nil => intro n p c; simp [scanLineAux, countBt]
  | cons ch rest ih =>
    intro n p c
    by_cases h : ch = backtickChar
    · simp [scanLineAux, countBt, h, ih]
      omega
    · simp [scanLineAux, countBt, h, ih]

theorem scanLineAux_events (l : List Char) : ∀ n p c : Nat,
    eventTotals (scanLineAux n p c l).2 = List.range' (c + 1) (countBt l) := by
  induction l with
  | nil => intro n p c; simp [scanLineAux, countBt, eventTotals]
  | cons ch rest ih =>
    intro n p c
    by_cases h : ch = backtickChar
    · simp only [scanLineAux, countBt, if_pos h, eventTotals, List.filterMap_cons, eventTotal]
      rw [show 1 + countBt rest = countBt rest + 1 by omega, List.range'_succ]
      have := ih n (p + 1) (c + 1)
      simp only [eventTotals] at this
      simp [this]
    · simp only [scanLineAux, countBt, if_neg h, eventTotals]
      rw [Nat.zero_add]
      have := ih n (p + 1) c
      simpa [eventTotals] using this

theorem mem_scanLineAux_snd (l : List Char) : ∀ (n p c : Nat) (x : OutLine),
    x ∈ (scanLineAux n p c l).2 → ∃ a b t, x = OutLine.event a b t := by
  induction l with
  | nil => intro n p c x hx; simp [scanLineAux] at hx
  | cons ch rest ih =>
    intro n p c x hx
    by_cases h : ch = backtickChar
    · simp only [scanLineAux, if_pos h, List.mem_cons] at hx
      rcases hx with hx | hx
      · exact ⟨n, p + 1, c + 1, hx⟩
      · exact ih _ _ _ _ hx
    · simp only [scanLineAux, if_neg h] at hx
      exact ih _ _ _ _ hx

theorem warning_not_mem_scanLineAux (l : List Char) (n p c m : Nat) :
    OutLine.warning m ∉ (scanLineAux n p c l).2 := by
  intro hmem
  obtain ⟨a, b, t, he⟩ := mem_scanLineAux_snd l n p c _ hmem
  exact OutLine.noConfusion he

theorem eventTotals_append (xs ys : List OutLine) :
    eventTotals (xs ++ ys) = eventTotals xs ++ eventTotals ys := by
  simp [eventTotals]

theorem processLines_fst (ls : List (List Char)) : ∀ n c : Nat,
    (processLines n c ls).1 = c + totalBackticks ls := by
  induction ls with
  | nil => intro n c; simp [processLines, totalBackticks]
  | cons l ls ih =>
    intro n c
    simp only [processLines]
    rw [ih, scanLineAux_fst, totalBackticks]
    omega

theorem processLines_events (ls : List (List Char)) : ∀ n c : Nat,
    eventTotals (processLines n c ls).2 = List.range' (c + 1) (totalBackticks ls) := by
  induction ls with
  | nil => intro n c; simp [processLines, totalBackticks, eventTotals]
  | cons l ls ih =>
    intro n c
    simp only [processLines]
    rw [eventTotals_append, eventTotals_append, scanLineAux_events, scanLineAux_fst, ih]
    have hw2 : eventTotals (if (c + countBt l) % 2 = 1 then [OutLine.warning n] else []) = [] := by
      split <;> rfl
    rw [hw2]
    rw [totalBackticks, List.append_nil]
    rw [show c + countBt l + 1 = c + 1 + countBt l by omega]
    rw [List.range'_append_1]
    congr 1
    omega

theorem processLines_snd_length (ls : List (List Char)) : ∀ n c : Nat,
    (processLines n c ls).2.length ≤ totalBackticks ls + ls.length := by
  induction ls with
  | nil => intro n c; simp [processLines, totalBackticks]
  | cons l ls ih =>
    intro n c
    simp only [processLines, List.length_append]
    have h1 := scanLineAux_snd_length l n 0 c
    have h2 := ih (n + 1) (scanLineAux n 0 c l).1
    have h3 : (if (scanLineAux n 0 c l).1 % 2 = 1
        then [OutLine.warning n] else []).length ≤ 1 := by
      split <;> simp
    simp only [totalBackticks, List.length_cons]
    omega

theorem warning_mem_processLines (ls : List (List Char)) : ∀ n c m : Nat,
    OutLine.warning m ∈ (processLines n c ls).2 ↔
      ∃ i, i < ls.length ∧ m = n + i ∧
        (c + totalBackticks (ls.take (i + 1))) % 2 = 1 := by
  induction ls with
  | nil => intro n c m; simp [processLines]
  | cons l ls ih =>
    intro n c m
    have hnw := warning_not_mem_scanLineAux l n 0 c m
    have hfst := scanLineAux_fst l n 0 c
    constructor
    · intro hm
      simp only [processLines, List.mem_append] at hm
      rcases hm with (hm | hm) | hm
      · exact absurd hm hnw
      · rw [hfst] at hm
        by_cases hp : (c + countBt l) % 2 = 1
        · rw [if_pos hp] at hm
          simp only [List.mem_singleton] at hm
          have hm2 : m = n := by cases hm; rfl
          refine ⟨0, by simp, by omega, ?_⟩
          simpa [totalBackticks] using hp
        · rw [if_neg hp] at hm
          simp at hm
      · rw [hfst] at hm
        rcases (ih (n + 1) (c + countBt l) m).1 hm with ⟨i, hi, hmi, hpar⟩
        refine ⟨i + 1, by simpa using Nat.succ_lt_succ hi, by omega, ?_⟩
        simp only [List.take_succ_cons, totalBackticks]
        omega
    · rintro ⟨i, hi, hmi, hpar⟩
      simp only [processLines, List.mem_append]
      rcases i with _ | i
      · left; right
        rw [hfst]
        have hp : (c + countBt l) % 2 = 1 := by
          simpa [totalBackticks] using hpar
        rw [if_pos hp]
        simp only [List.mem_singleton]
        have : m = n := by omega
        rw [this]
      · right
        rw [hfst]
        refine (ih (n + 1) (c + countBt l) m).2 ⟨i, by simpa using hi, by omega, ?_⟩
        simp only [List.take_succ_cons, totalBackticks] at hpar
        omega

theorem getLast?_append_three (xs : List OutLine) (a b c : OutLine) :
    (xs ++ [a, b, c]).getLast? = some c := by
  rw [show [a, b, c] = [a, b] ++ [c] from rfl, ← List.append_assoc, List.getLast?_concat]

theorem out_getLast (lines : List (List Char)) :
    (find_unclosed_backtick lines).getLast? =
      some (if totalBackticks lines % 2 = 1 then OutLine.verdictError
        else OutLine.verdictOk) := by
  unfold find_unclosed_backtick
  rw [getLast?_append_three, processLines_fst, Nat.zero_add]

theorem warning_mem_output (lines : List (List Char)) (i : Nat) :
    OutLine.warning i ∈ find_unclosed_backtick lines ↔
      OutLine.warning i ∈ (processLines 1 0 lines).2 := by
  unfold find_unclosed_backtick
  by_cases hp : (processLines 1 0 lines).1 % 2 = 1 <;> simp [hp]

theorem scanLineAux_of_no_bt (l : List Char) : ∀ n p c : Nat,
    countBt l = 0 → scanLineAux n p c l = (c, []) := by
  induction l with
  | nil => intro n p c _; rfl
  | cons ch rest ih =>
    intro n p c h
    simp only [countBt] at h
    have hch : ¬ ch = backtickChar := by
      intro he; rw [if_pos he] at h; omega
    rw [if_neg hch] at h
    simp only [scanLineAux, if_neg hch]
    exact ih n (p + 1) c (by omega)

theorem processLines_of_no_bt (ls : List (List Char)) : ∀ n : Nat,
    totalBackticks ls = 0 → processLines n 0 ls = (0, []) := by
  induction ls with
  | nil => intro n _; rfl
  | cons l ls ih =>
    intro n h
    simp only [totalBackticks] at h
    simp only [processLines]
    rw [scanLineAux_of_no_bt l n 0 0 (by omega)]
    simp [ih (n + 1) (show totalBackticks ls = 0 by omega)]

theorem runTrace_getD (ls : List (List Char)) : ∀ n c i : Nat, i < ls.length →
    (runTrace n c ls).getD i 0 = c + totalBackticks (ls.take (i + 1)) := by
  induction ls with
  | nil => intro n c i h; simp at h
  | cons l ls ih =>
    intro n c i h
    rcases i with _ | i
    · simp [runTrace, totalBackticks, scanLineAux_fst]
    · simp only [runTrace, List.getD_cons_succ]
      rw [ih (n + 1) _ i (by simpa using h)]
      rw [scanLineAux_fst]
      simp only [List.take_succ_cons, totalBackticks]
      omega

theorem range'_getD (n : Nat) : ∀ s k : Nat, k < n →
    (List.range' s n).getD k 0 = s + k := by
  induction n with
  | zero => intro s k h; omega
  | succ n ih =>
    intro s k h
    rw [List.range'_succ]
    rcases k with _ | k
    · simp
    · simp only [List.getD_cons_succ]
      rw [ih (s + 1) k (by omega)]
      omega

theorem totalBackticks_take_mono (lines : List (List Char)) : ∀ i : Nat,
    totalBackticks (lines.take i) ≤ totalBackticks (lines.take (i + 1)) := by
  induction lines with
  | nil => intro i; simp
  | cons l ls ih =>
    intro i
    rcases i with _ | i
    · simp [totalBackticks]
    · simp only [List.take_succ_cons, totalBackticks]
      have := ih i
      omega

theorem totalBackticks_take_succ (lines : List (List Char)) : ∀ k : Nat,
    k < lines.length →
    totalBackticks (lines.take (k + 1)) =
      totalBackticks (lines.take k) + countBt (lines.getD k []) := by
  induction lines with
  | nil => intro k h; simp at h
  | cons l ls ih =>
    intro k h
    rcases k with _ | k
    · simp [totalBackticks]
    · simp only [List.take_succ_cons, totalBackticks, List.getD_cons_succ]
      rw [ih k (by simpa using h)]
      omega

theorem scanLineAux_append_newline (l : List Char) : ∀ n p c : Nat,
    scanLineAux n p c (l ++ [newlineChar]) = scanLineAux n p c l := by
  induction l with
  | nil =>
    intro n p c
    have h : ¬ newlineChar = backtickChar := by decide
    simp [scanLineAux, h]
  | cons ch rest ih =>
    intro n p c
    by_cases h : ch = backtickChar <;> simp [scanLineAux, h, ih]

theorem mem_readlinesAux (rest : List Char) : ∀ cur l : List Char,
    (∀ ch ∈ cur, ch ≠ newlineChar) → l ∈ readlinesAux cur rest →
    ∃ l2, (∀ ch ∈ l2, ch ≠ newlineChar) ∧ (l = l2 ∨ l = l2 ++ [newlineChar]) := by
  induction rest with
  | nil =>
    intro cur l hcur hl
    by_cases hc : cur.isEmpty
    · simp [readlinesAux, hc] at hl
    · simp only [readlinesAux, if_neg hc, List.mem_singleton] at hl
      subst hl
      exact ⟨cur.reverse, fun ch hch => hcur ch (List.mem_reverse.mp hch), Or.inl rfl⟩
  | cons ch rest ih =>
    intro cur l hcur hl
    by_cases h : ch = newlineChar
    · simp only [readlinesAux, if_pos h, List.mem_cons] at hl
      rcases hl with hl | hl
      · exact ⟨cur.reverse, fun c2 hc2 => hcur c2 (List.mem_reverse.mp hc2), Or.inr hl⟩
      · exact ih [] l (by simp) hl
    · simp only [readlinesAux, if_neg h] at hl
      refine ih (ch :: cur) l ?_ hl
      intro c2 hc2
      rcases List.mem_cons.mp hc2 with rfl | hc2
      · exact h
      · exact hcur _ hc2

theorem stripNewline_no_nl (l : List Char) (h : ∀ ch ∈ l, ch ≠ newlineChar) :
    stripNewline l = l := by
  unfold stripNewline
  split
  · rename_i hlast
    exact absurd rfl (h newlineChar (List.mem_of_getLast?_eq_some hlast))
  · rfl

theorem stripNewline_append_newline (l : List Char) :
    stripNewline (l ++ [newlineChar]) = l := by
  unfold stripNewline
  rw [List.getLast?_concat, List.dropLast_concat]
  simp

/-- Claim C1: for every successfully read input file, the final printed verdict
(the trailing output line) is the OK message iff the total backtick count is
even, and the error message iff the total is odd. -/
theorem c1_verdict_parity (lines : List (List Char)) :
    ((find_unclosed_backtick lines).getLast? = some OutLine.verdictOk ↔
      totalBackticks lines % 2 = 0) ∧
    ((find_unclosed_backtick lines).getLast? = some OutLine.verdictError ↔
      totalBackticks lines % 2 = 1) := by
  rcases Nat.mod_two_eq_zero_or_one (totalBackticks lines) with h | h <;>
    simp [out_getLast, h]

/-- Claim C2: the counter value after processing line `i` (entry `i` of
`counterTrace`) equals the total number of backticks in lines `1..i`; the
counter starts at zero, is monotonically non-decreasing from each line to the
next, and the final counter of the run equals the total over all lines. -/
theorem c2_counter_invariant (lines : List (List Char)) (i : Nat)
    (h : i ≤ lines.length) :
    (counterTrace lines).getD i 0 = totalBackticks (lines.take i) ∧
    (counterTrace lines).getD 0 0 = 0 ∧
    (i < lines.length →
      (counterTrace lines).getD i 0 ≤ (counterTrace lines).getD (i + 1) 0) ∧
    (processLines 1 0 lines).1 = totalBackticks lines := by
  have key : ∀ j : Nat, j ≤ lines.length →
      (counterTrace lines).getD j 0 = totalBackticks (lines.take j) := by
    intro j hj
    rcases j with _ | j
    · simp [counterTrace, totalBackticks]
    · simp only [counterTrace, List.getD_cons_succ]
      rw [runTrace_getD lines 1 0 j (by omega), Nat.zero_add]
  refine ⟨key i h, by simp [counterTrace], ?_, by rw [processLines_fst, Nat.zero_add]⟩
  intro hlt
  rw [key i h, key (i + 1) (by omega)]
  exact totalBackticks_take_mono lines i

/-- Witness for C2 at the one-line file whose line is `a` followed by a
backtick, taking `i = 1`. -/
theorem c2_counter_invariant_witness :
    1 ≤ List.length [['a', backtickChar]] ∧
    (counterTrace [['a', backtickChar]]).getD 1 0 =
      totalBackticks ([['a', backtickChar]].take 1) ∧
    (counterTrace [['a', backtickChar]]).getD 0 0 = 0 ∧
    (processLines 1 0 [['a', backtickChar]]).1 =
      totalBackticks [['a', backtickChar]] :=
  ⟨by decide,
    (c2_counter_invariant [['a', backtickChar]] 1 (by decide)).1,
    (c2_counter_invariant [['a', backtickChar]] 1 (by decide)).2.1,
    (c2_counter_invariant [['a', backtickChar]] 1 (by decide)).2.2.2⟩

/-- Claim C3: the sequence of totals reported by the per-backtick event lines
is exactly `1, 2, ..., t` where `t` is the number of backticks in the file: so
there is one event line per backtick and the `k`-th event reports total `k`. -/
theorem c3_event_lines (lines : List (List Char)) :
    eventTotals (find_unclosed_backtick lines) =
      List.range' 1 (totalBackticks lines) ∧
    (eventTotals (find_unclosed_backtick lines)).length = totalBackticks lines ∧
    ∀ k : Nat, k < totalBackticks lines →
      (eventTotals (find_unclosed_backtick lines)).getD k 0 = k + 1 := by
  have h2 : ∀ t : Nat,
      eventTotals [OutLine.blank, OutLine.totalLine t,
        if t % 2 = 1 then OutLine.verdictError else OutLine.verdictOk] = [] := by
    intro t; split <;> rfl
  have h1 : eventTotals (find_unclosed_backtick lines) =
      List.range' 1 (totalBackticks lines) := by
    unfold find_unclosed_backtick
    rw [eventTotals_append, processLines_events, Nat.zero_add, h2, List.append_nil]
  refine ⟨h1, by rw [h1]; simp, ?_⟩
  intro k hk
  rw [h1, range'_getD (totalBackticks lines) 1 k hk]
  omega

/-- Witness for C3 at a one-line file with two backticks, reading off the
first event's total. -/
theorem c3_event_lines_witness :
    0 < totalBackticks [['a', backtickChar, 'b', backtickChar]] ∧
    (eventTotals
      (find_unclosed_backtick [['a', backtickChar, 'b', backtickChar]])).getD 0 0 =
      0 + 1 :=
  ⟨by decide,
    (c3_event_lines [['a', backtickChar, 'b', backtickChar]]).2.2 0 (by decide)⟩

/-- Claim C4: a warning for line `i` is printed iff the cumulative backtick
count is odd at the end of line `i`; and on the two-line file obtained from
the raw contents backtick-`a`-newline-`b`-backtick the script warns for line 1
only and ends with the OK verdict. -/
theorem c4_warning_iff_odd (lines : List (List Char)) (i : Nat) :
    (OutLine.warning i ∈ find_unclosed_backtick lines ↔
      1 ≤ i ∧ i ≤ lines.length ∧ totalBackticks (lines.take i) % 2 = 1) ∧
    (runScript (some [backtickChar, 'a', newlineChar, 'b', backtickChar])).1 =
      [OutLine.event 1 1 1, OutLine.warning 1, OutLine.event 2 2 2,
        OutLine.blank, OutLine.totalLine 2, OutLine.verdictOk] := by
  constructor
  · rw [warning_mem_output, warning_mem_processLines]
    constructor
    · rintro ⟨j, hj, rfl, hpar⟩
      refine ⟨by omega, by omega, ?_⟩
      rw [show 1 + j = j + 1 by omega]
      simpa using hpar
    · rintro ⟨h1, h2, hpar⟩
      refine ⟨i - 1, by omega, by omega, ?_⟩
      rw [show i - 1 + 1 = i by omega]
      simpa using hpar
  · decide

/-- Claim C5: a file with no backtick characters (the empty file included)
produces no event lines, no warnings, total 0, and the OK verdict — its whole
output is exactly the blank line, the zero total line and the OK verdict. -/
theorem c5_zero_backticks (lines : List (List Char))
    (h : totalBackticks lines = 0) :
    find_unclosed_backtick lines =
      [OutLine.blank, OutLine.totalLine 0, OutLine.verdictOk] := by
  unfold find_unclosed_backtick
  rw [processLines_of_no_bt lines 1 h]
  rfl

/-- Witness for C5 at the empty file (zero lines). -/
theorem c5_zero_backticks_witness :
    totalBackticks ([] : List (List Char)) = 0 ∧
    find_unclosed_backtick [] =
      [OutLine.blank, OutLine.totalLine 0, OutLine.verdictOk] :=
  ⟨by decide, c5_zero_backticks [] (by decide)⟩

/-- Claim C6: a nonexistent or unreadable path makes the run fail before any
printing: the failed run emits no output lines at all (no event, no warning,
no total line, no verdict) and does not complete normally. -/
theorem c6_missing_file_no_output : runScript none = ([], false) := rfl

/-- Claim C7: the script is deterministic — two runs on identical raw file
contents produce byte-identical standard output. -/
theorem c7_deterministic (c1 c2 : List Char) (h : c1 = c2) :
    renderOutput (runScript (some c1)).1 = renderOutput (runScript (some c2)).1 := by
  rw [h]

/-- Witness for C7 at a small concrete file. -/
theorem c7_deterministic_witness :
    ['a', backtickChar] = ['a', backtickChar] ∧
    renderOutput (runScript (some ['a', backtickChar])).1 =
      renderOutput (runScript (some ['a', backtickChar])).1 :=
  ⟨rfl, c7_deterministic ['a', backtickChar] ['a', backtickChar] rfl⟩

/-- Counterexample to C8 as stated: on the one-line file containing a single
backtick the script prints 5 lines (event, warning, blank, total, verdict),
which exceeds the claimed bound of one per backtick (1) plus one warning per
line (1) plus two summary lines (2). -/
theorem c8_summary_lines_counterexample :
    (find_unclosed_backtick [[backtickChar]]).length = 5 ∧
    totalBackticks [[backtickChar]] = 1 ∧
    List.length [[backtickChar]] = 1 ∧
    ¬ (find_unclosed_backtick [[backtickChar]]).length ≤
        totalBackticks [[backtickChar]] + List.length [[backtickChar]] + 2 := by
  decide

/-- Claim C8 as amended: the number of printed output lines is bounded by one
line per backtick, plus at most one warning line per input line, plus THREE
trailing summary lines (the blank line, the total line and the verdict line),
the verdict line being the trailing output. -/
theorem c8_output_bound (lines : List (List Char)) :
    (find_unclosed_backtick lines).length ≤
      totalBackticks lines + lines.length + 3 ∧
    (find_unclosed_backtick lines).getLast? =
      some (if totalBackticks lines % 2 = 1 then OutLine.verdictError
        else OutLine.verdictOk) := by
  refine ⟨?_, out_getLast lines⟩
  unfold find_unclosed_backtick
  rw [List.length_append]
  have h1 := processLines_snd_length lines 1 0
  simp only [List.length_cons, List.length_nil]
  omega

/-- Claim C9: because the parity check uses the cumulative file-wide counter,
once the count is odd after line `i` and lines `i+1 .. j` contain no
backticks, every line from `i` to `j` receives a warning. -/
theorem c9_warning_cascade (lines : List (List Char)) (i j k : Nat)
    (hi : 1 ≤ i) (hj : j ≤ lines.length)
    (hodd : totalBackticks (lines.take i) % 2 = 1)
    (hzero : ∀ m : Nat, i < m → m ≤ j → countBt (lines.getD (m - 1) []) = 0)
    (hik : i ≤ k) (hkj : k ≤ j) :
    OutLine.warning k ∈ find_unclosed_backtick lines := by
  have key : ∀ d : Nat, i + d ≤ j →
      totalBackticks (lines.take (i + d)) % 2 = 1 := by
    intro d
    induction d with
    | zero => intro _; simpa using hodd
    | succ d ihd =>
      intro hd
      have h1 : i + d ≤ j := by omega
      have h2 : i + d < lines.length := by omega
      rw [show i + (d + 1) = (i + d) + 1 by omega,
        totalBackticks_take_succ lines (i + d) h2]
      have hz := hzero (i + d + 1) (by omega) (by omega)
      rw [show i + d + 1 - 1 = i + d by omega] at hz
      rw [hz]
      simpa using ihd h1
  have hk : totalBackticks (lines.take k) % 2 = 1 := by
    have := key (k - i) (by omega)
    rwa [show i + (k - i) = k by omega] at this
  rw [warning_mem_output]
  refine (warning_mem_processLines lines 1 0 k).2 ⟨k - 1, by omega, by omega, ?_⟩
  rw [show k - 1 + 1 = k by omega]
  simpa using hk

/-- Witness for C9: the count is odd after line 1 of a three-line file whose
lines 2 and 3 have no backticks, so line 2 (strictly after the opening line)
still gets a warning. -/
theorem c9_warning_cascade_witness :
    OutLine.warning 2 ∈
      find_unclosed_backtick [[backtickChar, 'a'], ['b'], ['c']] :=
  c9_warning_cascade [[backtickChar, 'a'], ['b'], ['c']] 1 3 2
    (by decide) (by decide) (by decide)
    (by
      intro m h1 h2
      have hm : m = 2 ∨ m = 3 := by omega
      rcases hm with rfl | rfl <;> decide)
    (by decide) (by decide)

/-- Claim C10: each line returned by `readlines` keeps its terminator, but
since a backtick is never a newline the scan of such a line is literally the
scan of the line with the terminator stripped — same events (hence the same
1-based positions, which are offsets among the non-terminator characters) and
the same final counter, which counts only the non-terminator backticks; the
stripped line contains no newline character. -/
theorem c10_terminator_positions (content l : List Char) (n p c : Nat)
    (h : l ∈ readlines content) :
    scanLineAux n p c l = scanLineAux n p c (stripNewline l) ∧
    (scanLineAux n p c l).1 = c + countBt (stripNewline l) ∧
    ∀ ch ∈ stripNewline l, ch ≠ newlineChar := by
  obtain ⟨l2, hl2, hcase⟩ := mem_readlinesAux content [] l (by simp) h
  rcases hcase with rfl | rfl
  · rw [stripNewline_no_nl _ hl2]
    exact ⟨rfl, scanLineAux_fst _ n p c, hl2⟩
  · rw [stripNewline_append_newline]
    exact ⟨scanLineAux_append_newline _ n p c,
      by rw [scanLineAux_append_newline, scanLineAux_fst], hl2⟩

/-- Witness for C10 at the two-line raw contents `a`-backtick-newline-`b`,
whose first `readlines` line carries its terminator. -/
theorem c10_terminator_positions_witness :
    ['a', backtickChar, newlineChar] ∈
      readlines ['a', backtickChar, newlineChar, 'b'] ∧
    scanLineAux 1 0 0 ['a', backtickChar, newlineChar] =
      scanLineAux 1 0 0 (stripNewline ['a', backtickChar, newlineChar]) ∧
    (scanLineAux 1 0 0 ['a', backtickChar, newlineChar]).1 =
      0 + countBt (stripNewline ['a', backtickChar, newlineChar]) :=
  ⟨by decide,
    (c10_terminator_positions ['a', backtickChar, newlineChar, 'b']
      ['a', backtickChar, newlineChar] 1 0 0 (by decide)).1,
    (c10_terminator_positions ['a', backtickChar, newlineChar, 'b']
      ['a', backtickChar, newlineChar] 1 0 0 (by decide)).2.1⟩

/-- Sanity theorem matching concrete scenario 1 of the specification: the
one-line file `a`-backtick-`b` yields one event at line 1 char 2 with total 1,
a warning for line 1, total 1 and the error verdict. -/
theorem scenario_one_line_single_backtick :
    find_unclosed_backtick [['a', backtickChar, 'b']] =
      [OutLine.event 1 2 1, OutLine.warning 1, OutLine.blank,
        OutLine.totalLine 1, OutLine.verdictError] := by decide

/-- Sanity theorem for universal-newline translation and `readlines`: a
carriage return plus line feed reads as one newline kept at the end of the
first line. -/
theorem scenario_readlines_crlf :
    readlines (translateNewlines ('a' :: carriageChar :: newlineChar :: ['b'])) =
      [['a', newlineChar], ['b']] := by decide

end BacktickScan
